import Mathlib

/-!
Verification of the CRC (cyclic redundancy check) engine of `src/week9/crc.py`.

Bit strings of the Python code (strings over the characters '0'/'1') are
modelled as `List Bool` with `true` standing for the character '1' and
`false` for '0'; the character-level validator `validate_binary_str` is
additionally modelled at the character level, since it is the one function
whose behaviour on non-binary characters matters.
-/

namespace CRC

/-- A bit string: `true` is the bit '1', `false` is '0'. -/
abbrev Bits := List Bool

/-- Embedding of `xor(a, b)` (crc.py line 14): XOR two binary strings.
Python's `zip` truncates to the shorter argument, as does `List.zipWith`. -/
def xor (a b : Bits) : Bits := List.zipWith Bool.xor a b

/-- Error taxonomy of the spec: `ValueError`s raised by crc.py, split by the
two message classes ("cannot be empty" / "must contain only" versus
"Generator polynomial must start with '1'"). -/
inductive Err where
  | invalidInput (label : String) : Err
  | invalidGenerator : Err
deriving DecidableEq, Repr

/-- Embedding of `validate_binary_str(s, name)` (crc.py lines 7-12) at the
character level: fails when `s` is empty or contains a character other
than '0' and '1', and otherwise returns `s` itself. -/
def validate_binary_str (s : List Char) (name : String) : Except Err (List Char) :=
  if s.isEmpty then .error (.invalidInput name)
  else if s.any (fun c => !(c == '0' || c == '1')) then .error (.invalidInput name)
  else .ok s

/-- `validate_binary_str` specialized to the `List Bool` model of bit strings:
for an already-binary string the character-class check cannot fail, so only
the emptiness check remains. -/
def validateBits (s : Bits) (name : String) : Except Err Bits :=
  if s.isEmpty then .error (.invalidInput name) else .ok s

/-- One record of the division trace: the step's window starting offset, the
window's bits before the step, whether an XOR was applied, and the window's
bits after the step (crc.py lines 33-46 print exactly this data). -/
structure TraceStep where
  offset : Nat
  window : Bits
  xored : Bool
  after : Bits
deriving DecidableEq, Repr

/-- One iteration of the division loop of `long_division_show` at window
offset `i` (crc.py lines 33-48): read the window `work[i:i+n]`; if its
leading bit is '1', write `xor(window, divisor)` back at `i`. -/
def divisionStep (divisor work : Bits) (i : Nat) : Bits :=
  let window := (work.drop i).take divisor.length
  if window.headI then
    work.take i ++ xor window divisor ++ work.drop (i + divisor.length)
  else work

/-- The division loop of `long_division_show` run for the first `k` window
offsets (crc.py line 32, `for i in range(len(dividend) - n + 1)`), with the
mutable buffer `work` passed explicitly.  The trace records what the Python
code prints per step; it is accumulated only when `show_steps` is true. -/
def divisionSweep (divisor work : Bits) (show_steps : Bool) : Nat → Bits × List TraceStep
  | 0 => (work, [])
  | k + 1 =>
    let p := divisionSweep divisor work show_steps k
    let window := (p.1.drop k).take divisor.length
    let w := divisionStep divisor p.1 k
    (w, if show_steps
        then p.2 ++ [⟨k, window, window.headI, (w.drop k).take divisor.length⟩]
        else p.2)

/-- Embedding of `long_division_show(dividend, divisor, show_steps)`
(crc.py lines 18-53): binary modulo-2 long division.  Runs the window loop
over all `max(0, len(dividend) - n + 1)` offsets and returns the remainder:
the last `n - 1` buffer bits when `n > 1`, and the single bit '0' when
`n = 1` (crc.py line 49).  Note the Python function performs no check on the
divisor's leading bit.  (For the empty divisor the Python loop would fault
on `window[0]`; the embedding is total and treats that never-validated case
as a skipped step.) -/
def long_division_show (dividend divisor : Bits) (show_steps : Bool) :
    Bits × List TraceStep :=
  let p := divisionSweep divisor dividend show_steps (dividend.length + 1 - divisor.length)
  (if divisor.length > 1 then p.1.drop (p.1.length - (divisor.length - 1)) else [false],
   p.2)

/-- Embedding of `compute_crc_sender(data_bits, generator_bits, show_steps)`
(crc.py lines 55-79): validate both inputs, require the generator's leading
bit to be '1', append `len(generator) - 1` zero bits to the data, divide,
and return `(remainder, data ++ remainder)`. -/
def compute_crc_sender (data_bits generator_bits : Bits) (show_steps : Bool) :
    Except Err (Bits × Bits) :=
  match validateBits data_bits "Data bits" with
  | .error e => .error e
  | .ok _ =>
    match validateBits generator_bits "Generator bits" with
    | .error e => .error e
    | .ok _ =>
      if generator_bits.headI ≠ true then .error .invalidGenerator
      else
        let k := generator_bits.length - 1
        let augmented := data_bits ++ List.replicate k false
        let remainder := (long_division_show augmented generator_bits show_steps).1
        .ok (remainder, data_bits ++ remainder)

/-- Embedding of `check_crc_receiver(received_bits, generator_bits, show_steps)`
(crc.py lines 81-101): validate both inputs, require the generator's leading
bit to be '1', divide the received frame directly (no padding), and return
`(all bits of the remainder are '0', remainder)`. -/
def check_crc_receiver (received_bits generator_bits : Bits) (show_steps : Bool) :
    Except Err (Bool × Bits) :=
  match validateBits received_bits "Received bits" with
  | .error e => .error e
  | .ok _ =>
    match validateBits generator_bits "Generator bits" with
    | .error e => .error e
    | .ok _ =>
      if generator_bits.headI ≠ true then .error .invalidGenerator
      else
        let remainder := (long_division_show received_bits generator_bits show_steps).1
        .ok (remainder.all (fun ch => ch == false), remainder)

/-- Embedding of the single-bit error injection of `demo_interactive`
(crc.py lines 135-136): `received = transmitted[:p] + b + transmitted[p+1:]`
where `b` toggles `transmitted[p]`. -/
def flip_one (t : Bits) (p : Nat) : Bits :=
  t.take p ++ [!(t.getD p false)] ++ t.drop (p + 1)

/-- Embedding of the multi-bit error injection of `demo_interactive`
(crc.py lines 140-151): for each requested position, toggle the bit when
the position lies in `[0, len(frame))` and silently skip it otherwise.
Positions are integers (Python's `int(pos)` may be negative). -/
def flip_bits (frame : Bits) (positions : List Int) : Bits :=
  positions.foldl
    (fun changed pos =>
      if 0 ≤ pos ∧ pos < (frame.length : Int) then
        changed.set pos.toNat (!(changed.getD pos.toNat false))
      else changed)
    frame

/-! ### Basic structural lemmas about the division sweep -/

lemma divisionSweep_succ_fst (g w : Bits) (b : Bool) (k : Nat) :
    (divisionSweep g w b (k + 1)).1 = divisionStep g (divisionSweep g w b k).1 k := rfl

lemma divisionSweep_fst_flag (g w : Bits) (b b' : Bool) (k : Nat) :
    (divisionSweep g w b k).1 = (divisionSweep g w b' k).1 := by
  induction k with
  | zero => rfl
  | succ k ih => rw [divisionSweep_succ_fst, divisionSweep_succ_fst, ih]

lemma divisionStep_length (g w : Bits) (i : Nat) (h : i + g.length ≤ w.length) :
    (divisionStep g w i).length = w.length := by
  unfold divisionStep
  by_cases hw : ((w.drop i).take g.length).headI = true
  · simp only [hw, if_true, List.length_append, List.length_take, List.length_drop, xor,
      List.length_zipWith]
    omega
  · simp [hw]

lemma divisionSweep_fst_length (g w : Bits) (b : Bool) (k : Nat)
    (h : k + g.length ≤ w.length + 1) :
    (divisionSweep g w b k).1.length = w.length := by
  induction k with
  | zero => rfl
  | succ k ih =>
    have hk : k + g.length ≤ w.length + 1 := by omega
    have hlen := ih hk
    rw [divisionSweep_succ_fst, divisionStep_length g _ k (by rw [hlen]; omega), hlen]

lemma headI_cons (a : Bool) (l : List Bool) : (a :: l).headI = a := rfl

lemma drop_replicate_append (k : Nat) (l : Bits) :
    (List.replicate k false ++ l).drop k = l := by
  simp

lemma take_replicate_append (k : Nat) (l : Bits) :
    (List.replicate k false ++ l).take k = List.replicate k false := by
  simp

lemma divisionStep_replicate_false (gt : Bits) (k : Nat) (rest' : Bits) :
    divisionStep (true :: gt) (List.replicate k false ++ false :: rest') k =
      List.replicate (k + 1) false ++ rest' := by
  unfold divisionStep
  rw [drop_replicate_append]
  have hwin : ((false :: rest').take (true :: gt).length) = false :: rest'.take gt.length := by
    simp
  simp only [hwin, headI_cons]
  rw [if_neg (show ¬(false = true) by decide), List.replicate_succ' k false, List.append_assoc]
  rfl

lemma divisionStep_replicate_true (gt : Bits) (k : Nat) (rest' : Bits) :
    divisionStep (true :: gt) (List.replicate k false ++ true :: rest') k =
      List.replicate (k + 1) false ++ (xor (rest'.take gt.length) gt ++ rest'.drop gt.length) := by
  unfold divisionStep
  rw [drop_replicate_append]
  have hwin : ((true :: rest').take (true :: gt).length) = true :: rest'.take gt.length := by
    simp
  simp only [hwin, headI_cons, if_true]
  rw [take_replicate_append]
  have hdrop : (List.replicate k false ++ true :: rest').drop (k + (true :: gt).length) =
      rest'.drop gt.length := by
    rw [← List.drop_drop, drop_replicate_append]
    simp
  rw [hdrop, List.replicate_succ' k false]
  simp [xor, List.append_assoc]

/-- After the first `k` steps of the sweep with a generator whose leading bit
is '1', the first `k` buffer positions are all '0': each step either sees a
'0' there already or XORs the leading '1' away. -/
lemma divisionSweep_replicate (gt : Bits) (w : Bits) (b : Bool) (k : Nat)
    (h : k + (gt.length + 1) ≤ w.length + 1) :
    ∃ rest, (divisionSweep (true :: gt) w b k).1 = List.replicate k false ++ rest ∧
      rest.length = w.length - k := by
  induction k with
  | zero => exact ⟨w, rfl, by simp⟩
  | succ k ih =>
    obtain ⟨rest, hbuf, hlen⟩ := ih (by omega)
    obtain ⟨r0, rest', rfl⟩ : ∃ r0 rest', rest = r0 :: rest' := by
      cases rest with
      | nil => exfalso; simp at hlen; omega
      | cons r0 rest' => exact ⟨r0, rest', rfl⟩
    have hlen' : rest'.length = w.length - k - 1 := by simp at hlen; omega
    rw [divisionSweep_succ_fst, hbuf]
    cases r0 with
    | false =>
      exact ⟨rest', divisionStep_replicate_false gt k rest', by omega⟩
    | true =>
      refine ⟨xor (rest'.take gt.length) gt ++ rest'.drop gt.length,
        divisionStep_replicate_true gt k rest', ?_⟩
      simp only [List.length_append, xor, List.length_zipWith, List.length_take,
        List.length_drop]
      omega

/-! ### C3, C8, C10: direct facts about `long_division_show` -/

/-- C3: dividing any non-empty dividend by the degenerate generator "1"
returns the single-bit remainder "0" (the `else` branch of crc.py line 49),
not the empty string the general last-(n-1)-bits rule would give. -/
theorem degenerate_generator_remainder (d : Bits) (b : Bool) (hd : d ≠ []) :
    (long_division_show d [true] b).1 = [false] := by
  simp [long_division_show]

theorem degenerate_generator_remainder_witness :
    (long_division_show [true, false] [true] true).1 = [false] :=
  degenerate_generator_remainder [true, false] true (by decide)

/-- C8: the `show_steps` flag only gates the trace the Python code prints;
the computed remainder is identical with and without tracing. -/
theorem remainder_independent_of_trace_flag (dividend divisor : Bits) (b b' : Bool) :
    (long_division_show dividend divisor b).1 = (long_division_show dividend divisor b').1 := by
  simp only [long_division_show]
  rw [divisionSweep_fst_flag divisor dividend b b']

/-- C10: a dividend strictly shorter than the divisor makes the Python loop
`range(len(dividend) - n + 1)` empty, so no XOR step runs (empty trace) and
the remainder is the last `min(len(dividend), n-1)` bits of the dividend,
which is the whole dividend unchanged — shorter than `n - 1` whenever
`len(dividend) < n - 1`. -/
theorem short_dividend_unchanged (d g : Bits) (b : Bool) (hd : d ≠ [])
    (hlen : d.length < g.length) :
    long_division_show d g b = (d, []) ∧ d.length = min d.length (g.length - 1) := by
  have hpos : 0 < d.length := List.length_pos.mpr hd
  have hiter : d.length + 1 - g.length = 0 := by omega
  have hg1 : 1 < g.length := by omega
  have hsub : d.length - (g.length - 1) = 0 := by omega
  constructor
  · unfold long_division_show
    rw [hiter]
    simp [divisionSweep, hg1, hsub]
  · omega

theorem short_dividend_unchanged_witness :
    long_division_show [true, false] [true, false, true, true] true = ([true, false], []) ∧
      ([true, false] : Bits).length =
        min ([true, false] : Bits).length (([true, false, true, true] : Bits).length - 1) :=
  short_dividend_unchanged [true, false] [true, false, true, true] true (by decide) (by decide)

/-! ### C2: where the leading-bit check actually lives -/

lemma headI_ne_nil {g : Bits} (hg : g.headI = true) : g ≠ [] := by
  intro h
  rw [h] at hg
  simp [List.headI] at hg

/-- C2 counterexample: `long_division_show` itself performs no check on the
divisor's leading bit.  Called directly with divisor "0101" (leading bit 0)
on dividend "1101" it does not fail: it returns the remainder "000", and its
trace records that an XOR step was executed (`xored = true` at offset 0) —
contradicting both "fails with InvalidGeneratorError" and "no XOR step
runs". -/
theorem divider_accepts_leading_zero_generator :
    long_division_show [true, true, false, true] [false, true, false, true] true =
      ([false, false, false],
       [⟨0, [true, true, false, true], true, [true, false, false, false]⟩]) := by
  decide

/-- C2 amended: the leading-bit check is performed not by the divider but by
the two entry points `compute_crc_sender` and `check_crc_receiver`, each of
which fails with the invalid-generator error before invoking
`long_division_show` (so no division step of theirs executes). -/
theorem generator_check_in_entry_points (data received g : Bits) (s1 s2 : Bool)
    (hd : data ≠ []) (hr : received ≠ []) (hgne : g ≠ []) (hg : g.headI ≠ true) :
    compute_crc_sender data g s1 = .error .invalidGenerator ∧
    check_crc_receiver received g s2 = .error .invalidGenerator := by
  unfold compute_crc_sender check_crc_receiver validateBits
  simp [List.isEmpty_iff, hd, hr, hgne, hg]

theorem generator_check_in_entry_points_witness :
    compute_crc_sender [true, true, false, true] [false, true, false, true] true =
      .error .invalidGenerator ∧
    check_crc_receiver [true, false] [false, true, false, true] false =
      .error .invalidGenerator :=
  generator_check_in_entry_points [true, true, false, true] [true, false]
    [false, true, false, true] true false (by decide) (by decide) (by decide) (by decide)

/-! ### C4 counterexample: the degenerate generator "1" breaks the length invariant -/

/-- C4 counterexample: with the degenerate generator "1" (leading bit 1,
length 1) and data "1", the sender produces checksum "0" and transmitted
frame "10" of length 2, not `len(data) + (len(generator) - 1) = 1`: the
`n = 1` special case of crc.py line 49 always emits one remainder bit. -/
theorem degenerate_generator_breaks_length_invariant :
    compute_crc_sender [true] [true] false = .ok ([false], [true, false]) ∧
    ¬ (([true, false] : Bits).length =
        ([true] : Bits).length + (([true] : Bits).length - 1)) :=
  ⟨rfl, by decide⟩

/-! ### C6: the input validator -/

/-- C6: `validate_binary_str` fails with the invalid-input error exactly when
the text is empty or contains a character other than '0' and '1', and on
success returns the validated string itself. -/
theorem validate_binary_str_spec (s : List Char) (name : String) :
    (validate_binary_str s name = .error (.invalidInput name) ↔
      s = [] ∨ ∃ c ∈ s, c ≠ '0' ∧ c ≠ '1') ∧
    (validate_binary_str s name = .ok s ↔
      s ≠ [] ∧ ∀ c ∈ s, c = '0' ∨ c = '1') := by
  unfold validate_binary_str
  by_cases h1 : s.isEmpty
  · rw [if_pos h1]
    rw [List.isEmpty_iff] at h1
    simp [h1]
  · rw [if_neg h1]
    rw [List.isEmpty_iff] at h1
    by_cases h2 : s.any (fun c => !(c == '0' || c == '1'))
    · rw [if_pos h2]
      rw [List.any_eq_true] at h2
      obtain ⟨c, hc, hcv⟩ := h2
      simp only [Bool.not_eq_eq_eq_not, Bool.not_true, Bool.or_eq_false_iff, beq_eq_false_iff_ne,
        ne_eq] at hcv
      constructor
      · simp only [iff_true_intro rfl, true_iff]
        exact Or.inr ⟨c, hc, hcv⟩
      · constructor
        · intro h; exact absurd h (by simp)
        · rintro ⟨-, hall⟩
          exact absurd (hall c hc) (by tauto)
    · rw [if_neg h2]
      rw [List.any_eq_true] at h2
      push_neg at h2
      constructor
      · constructor
        · intro h; exact absurd h (by simp)
        · rintro (h | ⟨c, hc, hc0, hc1⟩)
          · exact absurd h h1
          · refine absurd (h2 c hc) ?_
            simp [hc0, hc1]
      · simp only [iff_true_intro rfl, true_iff]
        refine ⟨h1, fun c hc => ?_⟩
        have := h2 c hc
        simp only [Bool.not_eq_eq_eq_not, Bool.not_true, Bool.or_eq_false_iff,
          beq_eq_false_iff_ne, ne_eq, not_and] at this
        by_cases hc0 : c = '0'
        · exact Or.inl hc0
        · exact Or.inr (not_not.mp (this hc0))

/-! ### C7: the receiver divides the frame directly and tests for all-zero -/

/-- C7: for valid inputs the receiver runs the divider over the received
frame itself (no zero-padding) and reports `clean = true` exactly when every
bit of that remainder is '0'. -/
theorem receiver_divides_received_directly (received g : Bits) (s : Bool)
    (hr : received ≠ []) (hg : g.headI = true) :
    ∃ ok rem, check_crc_receiver received g s = .ok (ok, rem) ∧
      rem = (long_division_show received g s).1 ∧
      (ok = true ↔ ∀ b ∈ rem, b = false) := by
  have hgne : g ≠ [] := headI_ne_nil hg
  refine ⟨(long_division_show received g s).1.all (fun ch => ch == false),
    (long_division_show received g s).1, ?_, rfl, ?_⟩
  · unfold check_crc_receiver validateBits
    rw [if_neg (by simp [List.isEmpty_iff, hr]), if_neg (by simp [List.isEmpty_iff, hgne]),
      if_neg (by simp [hg])]
  · simp [List.all_eq_true]

theorem receiver_divides_received_directly_witness :
    check_crc_receiver [true, true, false, true, false, false, true] [true, false, true, true]
      false = .ok (true, [false, false, false]) := by
  obtain ⟨ok, rem, h1, h2, h3⟩ := receiver_divides_received_directly
    [true, true, false, true, false, false, true] [true, false, true, true] false
    (by decide) (by decide)
  have hrem : rem = [false, false, false] := h2.trans rfl
  have hok : ok = true := h3.mpr (by rw [hrem]; decide)
  rw [h1, hok, hrem]

/-! ### C9: the best-effort error injector -/

lemma flip_fold_length (frame : Bits) (ps : List Int) (work : Bits) :
    (ps.foldl (fun changed pos =>
      if 0 ≤ pos ∧ pos < (frame.length : Int) then
        changed.set pos.toNat (!(changed.getD pos.toNat false))
      else changed) work).length = work.length := by
  induction ps generalizing work with
  | nil => rfl
  | cons p rest ih =>
    rw [List.foldl_cons, ih]
    by_cases h : 0 ≤ p ∧ p < (frame.length : Int)
    · simp [h]
    · simp [h]

lemma flip_fold_getD (frame : Bits) (ps : List Int) (work : Bits) (j : Nat)
    (hw : work.length = frame.length) (hj : j < frame.length) :
    (ps.foldl (fun changed pos =>
      if 0 ≤ pos ∧ pos < (frame.length : Int) then
        changed.set pos.toNat (!(changed.getD pos.toNat false))
      else changed) work).getD j false =
      Bool.xor (work.getD j false) (decide (ps.count (j : Int) % 2 = 1)) := by
  induction ps generalizing work with
  | nil => simp
  | cons p rest ih =>
    rw [List.foldl_cons]
    by_cases hp : p = (j : Int)
    · subst hp
      have hcond : 0 ≤ (j : Int) ∧ (j : Int) < (frame.length : Int) :=
        ⟨Int.natCast_nonneg j, by exact_mod_cast hj⟩
      rw [if_pos hcond, ih _ (by simp [hw])]
      have htoNat : ((j : Int)).toNat = j := Int.toNat_natCast j
      have hset : (work.set ((j : Int)).toNat (!(work.getD ((j : Int)).toNat false))).getD j
          false = !(work.getD j false) := by
        rw [htoNat, List.getD_eq_getElem?_getD, List.getElem?_set_self (by omega),
          List.getD_eq_getElem?_getD]
        simp
      rw [hset, List.count_cons]
      rcases Nat.mod_two_eq_zero_or_one (rest.count (j : Int)) with h2 | h2 <;>
        simp [Nat.add_mod, h2]
    · have hcount : (p :: rest).count (j : Int) = rest.count (j : Int) := by
        simp [List.count_cons, hp]
      by_cases hcond : 0 ≤ p ∧ p < (frame.length : Int)
      · rw [if_pos hcond, ih _ (by simp [hw]), hcount]
        have hne : p.toNat ≠ j := by
          intro h
          exact hp (by omega)
        have hset : (work.set p.toNat (!(work.getD p.toNat false))).getD j false =
            work.getD j false := by
          rw [List.getD_eq_getElem?_getD, List.getElem?_set_ne hne, List.getD_eq_getElem?_getD]
        rw [hset]
      · rw [if_neg hcond, ih _ hw, hcount]

/-- C9: `flip_bits` returns a frame of the same length, toggles exactly the
requested offsets lying in `[0, len(frame))`, and silently ignores the
out-of-range ones (the call itself never fails: the function is total).
Requested offsets form a set, modelled as a duplicate-free list. -/
theorem flip_bits_spec (frame : Bits) (ps : List Int) (hnd : ps.Nodup) :
    (flip_bits frame ps).length = frame.length ∧
    ∀ j, j < frame.length →
      (flip_bits frame ps).getD j false =
        (if (j : Int) ∈ ps then !(frame.getD j false) else frame.getD j false) := by
  constructor
  · exact flip_fold_length frame ps frame
  · intro j hj
    unfold flip_bits
    rw [flip_fold_getD frame ps frame j rfl hj]
    by_cases hm : (j : Int) ∈ ps
    · have h1 : ps.count (j : Int) = 1 := List.count_eq_one_of_mem hnd hm
      simp [hm, h1]
    · have h0 : ps.count (j : Int) = 0 := List.count_eq_zero.mpr hm
      simp [hm, h0]

theorem flip_bits_spec_witness :
    (flip_bits [true, false, true] [0, 5, -1]).length = 3 ∧
    (flip_bits [true, false, true] [0, 5, -1]).getD 0 false = false := by
  have h := flip_bits_spec [true, false, true] [0, 5, -1] (by decide)
  refine ⟨h.1, ?_⟩
  have h2 := h.2 0 (by decide)
  simpa using h2

/-! ### Polynomial semantics over GF(2)

A bit string is read big-endian as a polynomial over `ZMod 2`: the head bit
is the coefficient of the highest power.  This is the standard semantics of
CRC arithmetic and is used to settle the round-trip and error-detection
claims. -/

open Polynomial in
/-- Big-endian interpretation of a bit string as a polynomial over GF(2). -/
noncomputable def toPoly : Bits → Polynomial (ZMod 2)
  | [] => 0
  | b :: tl => (if b then (X : Polynomial (ZMod 2)) ^ tl.length else 0) + toPoly tl

open Polynomial

lemma toPoly_nil : toPoly [] = 0 := rfl

lemma toPoly_cons (b : Bool) (tl : Bits) :
    toPoly (b :: tl) = (if b then (X : Polynomial (ZMod 2)) ^ tl.length else 0) + toPoly tl :=
  rfl

lemma addSelf (x : Polynomial (ZMod 2)) : x + x = 0 := by
  have h : ((1 : Polynomial (ZMod 2)) + 1) = 0 := by
    rw [← Polynomial.C_1, ← Polynomial.C_add]
    have h2 : (1 + 1 : ZMod 2) = 0 := by decide
    rw [h2, Polynomial.C_0]
  calc x + x = (1 + 1) * x := by ring
    _ = 0 := by rw [h, zero_mul]

lemma negEq (x : Polynomial (ZMod 2)) : -x = x :=
  neg_eq_of_add_eq_zero_left (addSelf x)

lemma subEqAdd (x y : Polynomial (ZMod 2)) : x - y = x + y := by
  rw [sub_eq_add_neg, negEq y]

lemma toPoly_append (a b : Bits) :
    toPoly (a ++ b) = toPoly a * (X : Polynomial (ZMod 2)) ^ b.length + toPoly b := by
  induction a with
  | nil => simp [toPoly_nil]
  | cons x tl ih =>
    rw [List.cons_append, toPoly_cons, toPoly_cons, ih, List.length_append, pow_add]
    cases x
    · simp
    · simp [add_mul, add_assoc]

lemma toPoly_replicate (k : Nat) : toPoly (List.replicate k false) = 0 := by
  induction k with
  | zero => rfl
  | succ k ih => rw [List.replicate_succ, toPoly_cons, ih]; simp

lemma toPoly_coeff_ge (l : Bits) (j : Nat) (hj : l.length ≤ j) : (toPoly l).coeff j = 0 := by
  induction l generalizing j with
  | nil => simp [toPoly_nil]
  | cons b tl ih =>
    rw [toPoly_cons, Polynomial.coeff_add, ih j (by simp at hj; omega)]
    have hterm : ((if b then (X : Polynomial (ZMod 2)) ^ tl.length else 0)).coeff j = 0 := by
      cases b
      · simp
      · rw [if_pos rfl, Polynomial.coeff_X_pow, if_neg (by simp at hj; omega)]
    rw [hterm, add_zero]

lemma toPoly_degree_lt (l : Bits) : (toPoly l).degree < (l.length : ℕ) := by
  rw [Polynomial.degree_lt_iff_coeff_zero]
  intro m hm
  exact toPoly_coeff_ge l m (by exact_mod_cast hm)

lemma toPoly_true_cons_coeff (tl : Bits) : (toPoly (true :: tl)).coeff tl.length = 1 := by
  rw [toPoly_cons, if_pos rfl, Polynomial.coeff_add, Polynomial.coeff_X_pow, if_pos rfl,
    toPoly_coeff_ge tl tl.length le_rfl, add_zero]

lemma toPoly_true_cons_ne_zero (tl : Bits) : toPoly (true :: tl) ≠ 0 := by
  intro h
  have hc := toPoly_true_cons_coeff tl
  rw [h, Polynomial.coeff_zero] at hc
  exact absurd hc (by decide)

lemma toPoly_natDegree_true_cons (tl : Bits) : (toPoly (true :: tl)).natDegree = tl.length := by
  rw [toPoly_cons, if_pos rfl]
  apply Polynomial.natDegree_eq_of_degree_eq_some
  rw [Polynomial.degree_add_eq_left_of_degree_lt
    (by rw [Polynomial.degree_X_pow]; exact toPoly_degree_lt tl), Polynomial.degree_X_pow]

lemma toPoly_eq_zero_iff (l : Bits) : toPoly l = 0 ↔ ∀ b ∈ l, b = false := by
  induction l with
  | nil => simp [toPoly_nil]
  | cons b tl ih =>
    cases b
    · rw [toPoly_cons]
      simp [ih]
    · constructor
      · intro h; exact absurd h (toPoly_true_cons_ne_zero tl)
      · intro h; exact absurd (h true (List.mem_cons_self true tl)) (by decide)

lemma toPoly_xor (a b : Bits) (h : a.length = b.length) :
    toPoly (xor a b) = toPoly a + toPoly b := by
  induction a generalizing b with
  | nil =>
    cases b
    · simp [xor, toPoly_nil]
    · simp at h
  | cons x tla ih =>
    cases b with
    | nil => simp at h
    | cons y tlb =>
      have hl : tla.length = tlb.length := by simpa using h
      have hcons : xor (x :: tla) (y :: tlb) = (Bool.xor x y) :: xor tla tlb := rfl
      have hlen2 : (xor tla tlb).length = tla.length := by
        simp [xor, List.length_zipWith]; omega
      rw [hcons, toPoly_cons, toPoly_cons, toPoly_cons, ih tlb hl, hlen2, hl]
      cases x <;> cases y
      · simp
      · simp; ring
      · simp; ring
      · rw [show (Bool.xor true true) = false from rfl]
        rw [if_neg (show ¬(false = true) by decide), if_pos (rfl : true = true), zero_add]
        calc toPoly tla + toPoly tlb
            = 0 + (toPoly tla + toPoly tlb) := by rw [zero_add]
          _ = ((X : Polynomial (ZMod 2)) ^ tlb.length + (X : Polynomial (ZMod 2)) ^ tlb.length)
              + (toPoly tla + toPoly tlb) := by rw [addSelf]
          _ = ((X : Polynomial (ZMod 2)) ^ tlb.length + toPoly tla)
              + ((X : Polynomial (ZMod 2)) ^ tlb.length + toPoly tlb) := by ring

/-! ### The division sweep preserves the polynomial class modulo the generator -/

lemma toPoly_divisionStep (g w : Bits) (i : Nat) (hi : i + g.length ≤ w.length) :
    toPoly g ∣ toPoly (divisionStep g w i) - toPoly w := by
  unfold divisionStep
  by_cases hw : ((w.drop i).take g.length).headI = true
  · rw [if_pos hw]
    have hdecomp : w = w.take i ++ ((w.drop i).take g.length ++ w.drop (i + g.length)) := by
      rw [← List.drop_drop, List.take_append_drop, List.take_append_drop]
    set A := w.take i with hAdef
    set W := (w.drop i).take g.length with hWdef
    set D := w.drop (i + g.length) with hDdef
    have hW : W.length = g.length := by
      rw [hWdef]
      simp only [List.length_take, List.length_drop]
      omega
    have hxorlen : (xor W g).length = g.length := by
      simp only [xor, List.length_zipWith, hW, min_self]
    refine ⟨(X : Polynomial (ZMod 2)) ^ D.length, ?_⟩
    have h1 : toPoly (A ++ xor W g ++ D) =
        (toPoly A * (X : Polynomial (ZMod 2)) ^ ((xor W g).length + D.length)
          + toPoly (xor W g) * (X : Polynomial (ZMod 2)) ^ D.length) + toPoly D := by
      rw [List.append_assoc, toPoly_append, toPoly_append, List.length_append, pow_add]
      ring
    have h2 : toPoly w =
        (toPoly A * (X : Polynomial (ZMod 2)) ^ (W.length + D.length)
          + toPoly W * (X : Polynomial (ZMod 2)) ^ D.length) + toPoly D := by
      conv_lhs => rw [hdecomp]
      rw [toPoly_append, toPoly_append, List.length_append, pow_add]
      ring
    rw [h1, h2, toPoly_xor W g (by rw [hW]), hxorlen, hW]
    ring
  · rw [if_neg hw]
    simp

lemma toPoly_divisionSweep (g w : Bits) (b : Bool) (k : Nat)
    (h : k + g.length ≤ w.length + 1) :
    toPoly g ∣ toPoly (divisionSweep g w b k).1 - toPoly w := by
  induction k with
  | zero => simp [divisionSweep]
  | succ k ih =>
    have hk : k + g.length ≤ w.length + 1 := by omega
    have hlen := divisionSweep_fst_length g w b k hk
    have hstep := toPoly_divisionStep g (divisionSweep g w b k).1 k (by rw [hlen]; omega)
    rw [divisionSweep_succ_fst]
    have hsum := dvd_add hstep (ih hk)
    rwa [sub_add_sub_cancel] at hsum

/-- Master lemma: for a generator with leading bit '1', length at least 2 and
no longer than the dividend, the divider's remainder has length
`len(generator) - 1` and is congruent to the dividend modulo the generator
polynomial. -/
lemma long_division_spec (d g : Bits) (b : Bool) (hg : g.headI = true)
    (hn : 2 ≤ g.length) (hL : g.length ≤ d.length) :
    ((long_division_show d g b).1).length = g.length - 1 ∧
    toPoly g ∣ toPoly d - toPoly ((long_division_show d g b).1) := by
  obtain ⟨g0, gt, rfl⟩ : ∃ g0 gt, g = g0 :: gt := by
    cases g with
    | nil => simp at hn
    | cons g0 gt => exact ⟨g0, gt, rfl⟩
  have hg0 : g0 = true := hg
  subst hg0
  have hlc : (true :: gt).length = gt.length + 1 := rfl
  rw [hlc] at hL hn
  rw [hlc]
  obtain ⟨rest, hbuf, hrlen⟩ :=
    divisionSweep_replicate gt d b (d.length + 1 - (gt.length + 1)) (by omega)
  have hrem : (long_division_show d (true :: gt) b).1 = rest := by
    simp only [long_division_show, hlc]
    rw [hbuf]
    have hlen : (List.replicate (d.length + 1 - (gt.length + 1)) false ++ rest).length
        = d.length := by
      simp only [List.length_append, List.length_replicate]
      omega
    rw [if_pos (by omega), hlen,
      show d.length - (gt.length + 1 - 1) = d.length + 1 - (gt.length + 1) from by omega]
    exact drop_replicate_append _ _
  rw [hrem]
  constructor
  · omega
  · have hdvd := toPoly_divisionSweep (true :: gt) d b (d.length + 1 - (gt.length + 1))
      (by rw [hlc]; omega)
    rw [hbuf, toPoly_append, toPoly_replicate, zero_mul, zero_add] at hdvd
    rw [show toPoly d - toPoly rest = -(toPoly rest - toPoly d) from (neg_sub _ _).symm]
    exact dvd_neg.mpr hdvd

/-! ### Closed forms of the two entry points on valid inputs -/

lemma compute_crc_sender_eq (data g : Bits) (s : Bool) (hd : data ≠ [])
    (hg : g.headI = true) :
    compute_crc_sender data g s =
      .ok ((long_division_show (data ++ List.replicate (g.length - 1) false) g s).1,
           data ++ (long_division_show (data ++ List.replicate (g.length - 1) false) g s).1) := by
  have hgne := headI_ne_nil hg
  unfold compute_crc_sender validateBits
  rw [if_neg (by simp [List.isEmpty_iff, hd]), if_neg (by simp [List.isEmpty_iff, hgne]),
    if_neg (by simp [hg])]

lemma check_crc_receiver_eq (received g : Bits) (s : Bool) (hr : received ≠ [])
    (hg : g.headI = true) :
    check_crc_receiver received g s =
      .ok (((long_division_show received g s).1).all (fun ch => ch == false),
           (long_division_show received g s).1) := by
  have hgne := headI_ne_nil hg
  unfold check_crc_receiver validateBits
  rw [if_neg (by simp [List.isEmpty_iff, hr]), if_neg (by simp [List.isEmpty_iff, hgne]),
    if_neg (by simp [hg])]

/-! ### Helpers for the degenerate generator and the error injector -/

lemma remainder_degenerate (d : Bits) (b : Bool) :
    (long_division_show d [true] b).1 = [false] := by
  simp [long_division_show]

lemma generator_singleton {g : Bits} (hg : g.headI = true) (hn : ¬ 2 ≤ g.length) :
    g = [true] := by
  cases g with
  | nil => exact absurd hg (by simp [List.headI])
  | cons g0 gtl =>
    cases gtl with
    | nil => rw [show g0 = true from hg]
    | cons x l => exact absurd (by simp : 2 ≤ (g0 :: x :: l).length) hn

lemma flip_one_length (t : Bits) (p : Nat) (hp : p < t.length) :
    (flip_one t p).length = t.length := by
  simp only [flip_one, List.length_append, List.length_take, List.length_drop,
    List.length_cons, List.length_nil]
  omega

lemma toPoly_single (x : Bool) : toPoly [x] = if x then 1 else 0 := by
  cases x <;> simp [toPoly_cons, toPoly_nil]

lemma toPoly_flip_one (t : Bits) (p : Nat) (hp : p < t.length) :
    toPoly (flip_one t p) - toPoly t = (X : Polynomial (ZMod 2)) ^ (t.length - 1 - p) := by
  have hdecomp : t = t.take p ++ [t.getD p false] ++ t.drop (p + 1) := by
    conv_lhs => rw [← List.take_append_drop p t]
    rw [List.append_assoc]
    congr 1
    rw [List.drop_eq_getElem_cons hp]
    congr 1
    rw [List.getD_eq_getElem?_getD, List.getElem?_eq_getElem hp]
    rfl
  have hdlen : (t.drop (p + 1)).length = t.length - 1 - p := by
    simp only [List.length_drop]
    omega
  have hexp : ∀ x : Bool, toPoly (t.take p ++ [x] ++ t.drop (p + 1)) =
      (toPoly (t.take p) * (X : Polynomial (ZMod 2)) ^ (1 + (t.drop (p + 1)).length)
        + toPoly [x] * (X : Polynomial (ZMod 2)) ^ (t.drop (p + 1)).length)
        + toPoly (t.drop (p + 1)) := by
    intro x
    rw [List.append_assoc, toPoly_append, toPoly_append, List.length_append, pow_add,
      List.length_cons, List.length_nil]
    ring
  have hgoal : toPoly (flip_one t p) - toPoly t =
      (toPoly [!(t.getD p false)] - toPoly [t.getD p false])
        * (X : Polynomial (ZMod 2)) ^ (t.drop (p + 1)).length := by
    rw [show flip_one t p = t.take p ++ [!(t.getD p false)] ++ t.drop (p + 1) from rfl, hexp]
    rw [show toPoly t = toPoly (t.take p ++ [t.getD p false] ++ t.drop (p + 1)) from by
      rw [← hdecomp], hexp]
    ring
  rw [hgoal, hdlen]
  cases hb : t.getD p false
  · simp [toPoly_single]
  · rw [show toPoly [!true] = 0 from by simp [toPoly_single],
      show toPoly [true] = 1 from by simp [toPoly_single], zero_sub, neg_mul, one_mul, negEq]

/-! ### A generator with at least two '1' bits divides no pure power of X -/

lemma toPoly_coeff_getD (l : Bits) (i : Nat) (hi : i < l.length) :
    (toPoly l).coeff (l.length - 1 - i) = (if l.getD i false then 1 else 0) := by
  induction l generalizing i with
  | nil => simp at hi
  | cons b tl ih =>
    cases i with
    | zero =>
      have hidx : (b :: tl).length - 1 - 0 = tl.length := by simp
      rw [hidx, toPoly_cons, Polynomial.coeff_add, toPoly_coeff_ge tl tl.length le_rfl,
        add_zero]
      cases b
      · simp
      · simp [Polynomial.coeff_X_pow]
    | succ i =>
      have hi' : i < tl.length := by simp at hi; omega
      have hidx : (b :: tl).length - 1 - (i + 1) = tl.length - 1 - i := by
        simp only [List.length_cons]
        omega
      have hlt : tl.length - 1 - i < tl.length := by omega
      rw [hidx, toPoly_cons, Polynomial.coeff_add]
      have hterm : ((if b then (X : Polynomial (ZMod 2)) ^ tl.length else 0)).coeff
          (tl.length - 1 - i) = 0 := by
        cases b
        · simp
        · rw [if_pos rfl, Polynomial.coeff_X_pow, if_neg (by omega)]
      rw [hterm, zero_add, ih i hi']
      rfl

lemma two_true_positions (l : Bits) (h : 2 ≤ l.count true) :
    ∃ i j, i < j ∧ j < l.length ∧ l.getD i false = true ∧ l.getD j false = true := by
  induction l with
  | nil => simp at h
  | cons b tl ih =>
    cases b
    · have h' : 2 ≤ tl.count true := by
        rw [List.count_cons] at h
        simpa using h
      obtain ⟨i, j, h1, h2, h3, h4⟩ := ih h'
      exact ⟨i + 1, j + 1, by omega, by simp; omega, by simpa using h3, by simpa using h4⟩
    · have hmem : true ∈ tl := by
        rw [List.count_cons] at h
        simpa using h
      obtain ⟨j, hj, hjv⟩ := List.getElem_of_mem hmem
      refine ⟨0, j + 1, by omega, by simp; omega, rfl, ?_⟩
      show tl.getD j false = true
      rw [List.getD_eq_getElem?_getD, List.getElem?_eq_getElem hj]
      simpa using hjv

lemma not_dvd_X_pow (g : Bits) (hg : g.headI = true) (hw2 : 2 ≤ g.count true) (m : Nat) :
    ¬ toPoly g ∣ (X : Polynomial (ZMod 2)) ^ m := by
  rintro ⟨q, hq⟩
  obtain ⟨i, j, hij, hj, hgi, hgj⟩ := two_true_positions g hw2
  have hi : i < g.length := by omega
  have hcoeff_i : (toPoly g).coeff (g.length - 1 - i) ≠ 0 := by
    rw [toPoly_coeff_getD g i hi, hgi, if_pos rfl]
    decide
  have hcoeff_j : (toPoly g).coeff (g.length - 1 - j) ≠ 0 := by
    rw [toPoly_coeff_getD g j hj, hgj, if_pos rfl]
    decide
  have hgne : toPoly g ≠ 0 := fun h => hcoeff_i (by rw [h, Polynomial.coeff_zero])
  have hXm : ((X : Polynomial (ZMod 2)) ^ m) ≠ 0 := pow_ne_zero m Polynomial.X_ne_zero
  have hqne : q ≠ 0 := by
    intro h
    rw [h, mul_zero] at hq
    exact hXm hq
  have hdeg : m = (toPoly g).natDegree + q.natDegree := by
    have := Polynomial.natDegree_mul hgne hqne
    rw [← hq, Polynomial.natDegree_X_pow] at this
    exact this
  have htrail : m = (toPoly g).natTrailingDegree + q.natTrailingDegree := by
    have := Polynomial.natTrailingDegree_mul hgne hqne
    rw [← hq, Polynomial.natTrailingDegree_X_pow] at this
    exact this
  have h1 : (toPoly g).natTrailingDegree ≤ g.length - 1 - j :=
    Polynomial.natTrailingDegree_le_of_ne_zero hcoeff_j
  have h2 : g.length - 1 - i ≤ (toPoly g).natDegree :=
    Polynomial.le_natDegree_of_ne_zero hcoeff_i
  have h3 : q.natTrailingDegree ≤ q.natDegree := Polynomial.natTrailingDegree_le_natDegree q
  omega

/-! ### Sender core: the transmitted frame is divisible by the generator -/

lemma sender_transmitted_dvd (data g : Bits) (s : Bool) (hd : data ≠ [])
    (hg : g.headI = true) (hn : 2 ≤ g.length) :
    ((long_division_show (data ++ List.replicate (g.length - 1) false) g s).1).length
      = g.length - 1 ∧
    toPoly g ∣
      toPoly (data ++
        (long_division_show (data ++ List.replicate (g.length - 1) false) g s).1) := by
  have hdl : 1 ≤ data.length := List.length_pos.mpr hd
  have hL : g.length ≤ (data ++ List.replicate (g.length - 1) false).length := by
    simp only [List.length_append, List.length_replicate]
    omega
  obtain ⟨hrlen, hrdvd⟩ := long_division_spec _ g s hg hn hL
  refine ⟨hrlen, ?_⟩
  set r := (long_division_show (data ++ List.replicate (g.length - 1) false) g s).1 with hrdef
  have haug : toPoly (data ++ List.replicate (g.length - 1) false)
      = toPoly data * (X : Polynomial (ZMod 2)) ^ (g.length - 1) := by
    rw [toPoly_append, toPoly_replicate, add_zero, List.length_replicate]
  have ht : toPoly (data ++ r) = toPoly data * (X : Polynomial (ZMod 2)) ^ (g.length - 1)
      + toPoly r := by
    rw [toPoly_append, hrlen]
  rw [ht, ← haug, ← subEqAdd]
  exact hrdvd

lemma natDegree_toPoly_generator {g : Bits} (hg : g.headI = true) (hn : 2 ≤ g.length) :
    (toPoly g).natDegree = g.length - 1 := by
  obtain ⟨g0, gtl, rfl⟩ : ∃ a l, g = a :: l := by
    cases g with
    | nil => simp at hn
    | cons a l => exact ⟨a, l, rfl⟩
  have hg0 : g0 = true := hg
  subst hg0
  rw [toPoly_natDegree_true_cons]
  simp

/-! ### C4 amended: length invariant for generators of degree at least 1 -/

/-- C4 amended: for every non-empty data string and every generator of
length at least 2 with leading bit '1' (the degenerate generator "1" is the
counterexample that forces this restriction), the checksum has length
`len(generator) - 1` and the transmitted frame has length
`len(data) + (len(generator) - 1)`. -/
theorem transmitted_length_invariant (data g : Bits) (s : Bool) (hd : data ≠ [])
    (hg : g.headI = true) (hn : 2 ≤ g.length) :
    ∃ crc t, compute_crc_sender data g s = .ok (crc, t) ∧
      crc.length = g.length - 1 ∧ t.length = data.length + (g.length - 1) := by
  obtain ⟨hrlen, -⟩ := sender_transmitted_dvd data g s hd hg hn
  exact ⟨_, _, compute_crc_sender_eq data g s hd hg, hrlen,
    by simp only [List.length_append, hrlen]⟩

theorem transmitted_length_invariant_witness :
    (compute_crc_sender [true, true, false, true] [true, false, true, true] false).toOption.map
      (fun pr => (pr.1.length, pr.2.length)) = some (3, 7) := by
  obtain ⟨crc, t, hs, h1, h2⟩ := transmitted_length_invariant [true, true, false, true]
    [true, false, true, true] false (by decide) (by decide) (by decide)
  rw [hs]
  show some (crc.length, t.length) = some (3, 7)
  rw [h1, h2]
  rfl

/-! ### C1: round-trip correctness -/

/-- C1: for every non-empty data string and every generator with leading bit
'1', encoding and then verifying the transmitted frame with the same
generator reports `clean = true`: the receiver's remainder is all zeros. -/
theorem crc_round_trip (data g : Bits) (s1 s2 : Bool) (hd : data ≠ [])
    (hg : g.headI = true) :
    ∃ crc t rem, compute_crc_sender data g s1 = .ok (crc, t) ∧
      check_crc_receiver t g s2 = .ok (true, rem) := by
  by_cases hn : 2 ≤ g.length
  · obtain ⟨hrlen, hdvdt⟩ := sender_transmitted_dvd data g s1 hd hg hn
    set r := (long_division_show (data ++ List.replicate (g.length - 1) false) g s1).1
      with hrdef
    have hdl : 1 ≤ data.length := List.length_pos.mpr hd
    have htne : data ++ r ≠ [] := by simp [hd]
    have htL : g.length ≤ (data ++ r).length := by
      simp only [List.length_append, hrlen]
      omega
    obtain ⟨hr2len, hr2dvd⟩ := long_division_spec (data ++ r) g s2 hg hn htL
    set r2 := (long_division_show (data ++ r) g s2).1 with hr2def
    have hr2z : toPoly r2 = 0 := by
      have hdvd2 : toPoly g ∣ toPoly r2 := by
        have hsum := dvd_sub hdvdt hr2dvd
        rwa [sub_sub_cancel] at hsum
      by_contra hnz
      have hle := Polynomial.natDegree_le_of_dvd hdvd2 hnz
      have hlt : (toPoly r2).natDegree < g.length - 1 := by
        rw [Polynomial.natDegree_lt_iff_degree_lt hnz]
        have hdeg := toPoly_degree_lt r2
        rw [hr2len] at hdeg
        exact_mod_cast hdeg
      have hgdeg := natDegree_toPoly_generator hg hn
      omega
    have hall : r2.all (fun ch => ch == false) = true := by
      rw [List.all_eq_true]
      intro x hx
      have hx0 := (toPoly_eq_zero_iff r2).mp hr2z x hx
      simp [hx0]
    refine ⟨r, data ++ r, r2, compute_crc_sender_eq data g s1 hd hg, ?_⟩
    rw [check_crc_receiver_eq (data ++ r) g s2 htne hg, ← hr2def, hall]
  · have hgeq := generator_singleton hg hn
    subst hgeq
    refine ⟨[false], data ++ [false], [false], ?_, ?_⟩
    · rw [compute_crc_sender_eq data [true] s1 hd (by decide)]
      simp [remainder_degenerate]
    · rw [check_crc_receiver_eq (data ++ [false]) [true] s2 (by simp) (by decide),
        remainder_degenerate]
      rfl

theorem crc_round_trip_witness :
    (check_crc_receiver [true, true, false, true, false, false, true] [true, false, true, true]
      false).toOption.map Prod.fst = some true := by
  obtain ⟨crc, t, rem, hs, hr⟩ := crc_round_trip [true, true, false, true]
    [true, false, true, true] false false (by decide) (by decide)
  have hconc : compute_crc_sender [true, true, false, true] [true, false, true, true] false =
      .ok ([false, false, true], [true, true, false, true, false, false, true]) := rfl
  rw [hs] at hconc
  simp only [Except.ok.injEq, Prod.mk.injEq] at hconc
  rw [← hconc.2, hr]
  rfl

/-! ### C5: single-bit errors are always detected -/

/-- C5: for a generator of length at least 2 with leading bit '1' whose bit
pattern contains at least two '1' bits, flipping any single bit of a
correctly encoded transmitted frame makes the receiver report
`clean = false`. -/
theorem single_bit_error_detected (data g : Bits) (p : Nat) (s1 s2 : Bool)
    (hd : data ≠ []) (hg : g.headI = true) (hn : 2 ≤ g.length) (hw2 : 2 ≤ g.count true)
    (crc t : Bits) (hs : compute_crc_sender data g s1 = .ok (crc, t)) (hp : p < t.length) :
    ∃ rem, check_crc_receiver (flip_one t p) g s2 = .ok (false, rem) := by
  rw [compute_crc_sender_eq data g s1 hd hg] at hs
  simp only [Except.ok.injEq, Prod.mk.injEq] at hs
  obtain ⟨hcrc, ht⟩ := hs
  subst ht
  obtain ⟨hrlen, hdvdt⟩ := sender_transmitted_dvd data g s1 hd hg hn
  set r := (long_division_show (data ++ List.replicate (g.length - 1) false) g s1).1 with hrdef
  have hdl : 1 ≤ data.length := List.length_pos.mpr hd
  have htlen : (data ++ r).length = data.length + (g.length - 1) := by
    simp only [List.length_append, hrlen]
  have hpflen : (flip_one (data ++ r) p).length = (data ++ r).length :=
    flip_one_length _ p hp
  have hfne : flip_one (data ++ r) p ≠ [] := by
    apply List.ne_nil_of_length_pos
    rw [hpflen, htlen]
    omega
  have hfL : g.length ≤ (flip_one (data ++ r) p).length := by
    rw [hpflen, htlen]
    omega
  obtain ⟨hr2len, hr2dvd⟩ := long_division_spec (flip_one (data ++ r) p) g s2 hg hn hfL
  set r2 := (long_division_show (flip_one (data ++ r) p) g s2).1 with hr2def
  refine ⟨r2, ?_⟩
  rw [check_crc_receiver_eq _ g s2 hfne hg, ← hr2def]
  suffices hfa : r2.all (fun ch => ch == false) = false by rw [hfa]
  cases hcase : r2.all (fun ch => ch == false)
  · rfl
  · exfalso
    have hz : toPoly r2 = 0 := by
      rw [toPoly_eq_zero_iff]
      intro x hx
      rw [List.all_eq_true] at hcase
      have hx0 := hcase x hx
      simpa using hx0
    have hXdvd : toPoly g ∣ (X : Polynomial (ZMod 2)) ^ ((data ++ r).length - 1 - p) := by
      have h1 : toPoly g ∣ toPoly (flip_one (data ++ r) p) := by
        have h1' := hr2dvd
        rw [hz, sub_zero] at h1'
        exact h1'
      have h2 := dvd_sub h1 hdvdt
      rwa [toPoly_flip_one (data ++ r) p hp] at h2
    exact not_dvd_X_pow g hg hw2 _ hXdvd

theorem single_bit_error_detected_witness :
    (check_crc_receiver (flip_one [true, true, false, true, false, false, true] 0)
      [true, false, true, true] false).toOption.map Prod.fst = some false := by
  obtain ⟨rem, hr⟩ := single_bit_error_detected [true, true, false, true]
    [true, false, true, true] 0 false false (by decide) (by decide) (by decide) (by decide)
    [false, false, true] [true, true, false, true, false, false, true] rfl (by decide)
  rw [hr]
  rfl

end CRC
